import Mathlib

/-!
Shallow embedding of the accelerometer signal-conditioning pipeline of
`src/main.py` (functions `normalize`, `calibrate`, `integrate`), with
floating-point values modelled as exact rationals and NaN modelled as
`none` in `Option ℚ` where NaN propagation matters (the calibrator).
-/

namespace TrainPlot

/-- The gravitational constant of the source: `G = 9.81` (`src/main.py`, line 8). -/
def G : ℚ := 981 / 100

/-- One row of the N×4 sample table: `(time, accel_x, accel_y, accel_z)`. -/
structure Row4 where
  t : ℚ
  x : ℚ
  y : ℚ
  z : ℚ
deriving DecidableEq, Repr

/-- The reorientation step of `normalize`: `data *= (1.0, -1.0, -1.0, 1.0)`
(`src/main.py`, line 67), a broadcast multiply of each row by the constant
vector `(1, -1, -1, 1)`. -/
def remap (data : List Row4) : List Row4 :=
  data.map (fun r => ⟨r.t * 1, r.x * -1, r.y * -1, r.z * 1⟩)

/-- The unit-scale step of `normalize`: `data[::, 1:] *= G`
(`src/main.py`, line 70), multiplying the three acceleration columns by `G`. -/
def unitScale (data : List Row4) : List Row4 :=
  data.map (fun r => ⟨r.t, r.x * G, r.y * G, r.z * G⟩)

/-- `normalize` (`src/main.py`, lines 57–72): reorientation followed by
conversion to S.I. units. -/
def normalize (data : List Row4) : List Row4 :=
  unitScale (remap data)

/-- One row of an N×3 rate table (acceleration or velocity), finite values. -/
structure Vec3 where
  x : ℚ
  y : ℚ
  z : ℚ
deriving DecidableEq, Repr

def vadd (a b : Vec3) : Vec3 := ⟨a.x + b.x, a.y + b.y, a.z + b.z⟩

def vsub (a b : Vec3) : Vec3 := ⟨a.x - b.x, a.y - b.y, a.z - b.z⟩

/-- Row `p` times scalar `d` (the broadcast `points * delta_t`). -/
def vsmul (d : ℚ) (p : Vec3) : Vec3 := ⟨p.x * d, p.y * d, p.z * d⟩

def vzero : Vec3 := ⟨0, 0, 0⟩

/-- `np.diff(times, prepend=0.0, axis=0)` (`src/main.py`, line 121):
`Δt_0 = t_0 − 0`, `Δt_i = t_i − t_{i−1}`. -/
def deltaT (times : List ℚ) : List ℚ :=
  List.zipWith (fun a b => a - b) times (0 :: times)

/-- `np.cumsum(·, axis=0)`: running sums of a list of rows, starting from `acc`. -/
def cumsum (acc : Vec3) : List Vec3 → List Vec3
  | [] => []
  | h :: tl =>
      let s := vadd acc h
      s :: cumsum s tl

/-- `integrate` (`src/main.py`, lines 117–122):
`np.cumsum(points * np.diff(times, prepend=0.0), axis=0)`. -/
def integrate (times : List ℚ) (points : List Vec3) : List Vec3 :=
  cumsum vzero (List.zipWith (fun p d => vsmul d p) points (deltaT times))

/-! ## Claims about the Normalizer -/

/-- C1 counterexample: at input row `(0, 1, 2, 3)` the remap step produces
`(0, -1, -2, 3)`, not the `(0, 1, -2, -3)` the claim predicts (columns y and z
flipped, column x unchanged): the code flips columns x and y, not y and z. -/
theorem remap_flips_x_not_z :
    remap [⟨0, 1, 2, 3⟩] = [⟨0, -1, -2, 3⟩] ∧
      ([(⟨0, -1, -2, 3⟩ : Row4)] : List Row4) ≠ [⟨0, 1, -2, -3⟩] := by
  constructor
  · simp [remap]
  · simp
    intro h
    norm_num at h

/-- C1 (amended): the axis-remap step multiplies column 1 (raw x) and
column 2 (raw y) of every row by −1, while column 3 (raw z) and the time
column are left unchanged. -/
theorem remap_spec (data : List Row4) :
    remap data = data.map (fun r => ⟨r.t, -r.x, -r.y, r.z⟩) := by
  unfold remap
  apply List.map_congr_left
  intro r _
  simp

/-- C3 counterexample: at input row `(0, 1, 1, 1)` the unit-scale step
multiplies the acceleration columns by `9.81`, not by `9.80665` as the claim
states. -/
theorem unitScale_not_standard_g :
    unitScale [⟨0, 1, 1, 1⟩] = [⟨0, 981/100, 981/100, 981/100⟩] ∧
      ([(⟨0, 981/100, 981/100, 981/100⟩ : Row4)] : List Row4) ≠
        [⟨0, 980665/100000, 980665/100000, 980665/100000⟩] := by
  constructor
  · simp [unitScale, G]
  · simp
    intro h
    norm_num at h

/-- C3 (amended): the unit-scale step multiplies the three acceleration
columns (and only those) of every row by the source's gravitational constant
`G = 9.81`; the time column is untouched. -/
theorem unitScale_spec (data : List Row4) :
    unitScale data = data.map (fun r => ⟨r.t, r.x * (981/100), r.y * (981/100), r.z * (981/100)⟩) := by
  unfold unitScale G
  rfl

/-- C7: for every N×4 input table with N ≥ 1, `normalize` returns a table of
identical shape whose time column is exactly the input's time column. -/
theorem normalize_preserves_shape_and_time (data : List Row4) (h : 1 ≤ data.length) :
    (normalize data).length = data.length ∧
      (normalize data).map Row4.t = data.map Row4.t := by
  constructor
  · simp [normalize, unitScale, remap]
  · simp [normalize, unitScale, remap]

/-- C7 witness at a concrete one-row table. -/
theorem normalize_preserves_shape_and_time_witness :
    (normalize [⟨5, 1, 2, 3⟩]).length = 1 ∧
      (normalize [⟨5, 1, 2, 3⟩]).map Row4.t = [⟨5, 1, 2, 3⟩].map Row4.t := by
  have h := normalize_preserves_shape_and_time [⟨5, 1, 2, 3⟩] (by decide)
  simpa using h

/-! ## Claims about the Integrator -/

/-- C4: with a first time stamp `t > 0`, the first step uses `Δt_0 = t − 0`,
so the first output row is `rate_0 × t_0` exactly, per axis. -/
theorem integrate_first_sample (t : ℚ) (ts : List ℚ) (p : Vec3) (ps : List Vec3)
    (h : 0 < t) :
    (integrate (t :: ts) (p :: ps)).head? = some (vsmul t p) := by
  simp [integrate, deltaT, cumsum, vadd, vsmul, vzero]

/-- C4 witness: times `[1]`, rates `[(2, 3, 5)]`. -/
theorem integrate_first_sample_witness :
    (integrate [1] [⟨2, 3, 5⟩]).head? = some (vsmul 1 ⟨2, 3, 5⟩) :=
  integrate_first_sample 1 [] ⟨2, 3, 5⟩ [] (by norm_num)

lemma zipWith_sub_arith (d : ℚ) :
    ∀ (N : ℕ) (a : ℚ),
      List.zipWith (fun u v => u - v)
        ((List.range N).map (fun i : ℕ => a + ((i : ℚ) + 1) * d))
        (a :: (List.range N).map (fun i : ℕ => a + ((i : ℚ) + 1) * d)) =
      List.replicate N d := by
  intro N
  induction N with
  | zero => intro a; simp
  | succ n ih =>
      intro a
      rw [List.range_succ_eq_map]
      simp only [List.map_cons, List.map_map, List.zipWith_cons_cons, List.replicate_succ,
        List.cons.injEq]
      constructor
      · push_cast
        ring
      · have hfun :
            ((fun i : ℕ => a + ((i : ℚ) + 1) * d) ∘ Nat.succ) =
              (fun i : ℕ => (a + d) + ((i : ℚ) + 1) * d) := by
          funext i
          simp only [Function.comp]
          push_cast
          ring
        rw [hfun]
        simp only [Nat.cast_zero, zero_add, one_mul]
        exact ih (a + d)

lemma deltaT_uniform (N : ℕ) (d : ℚ) :
    deltaT ((List.range N).map (fun i : ℕ => ((i : ℚ) + 1) * d)) = List.replicate N d := by
  have h := zipWith_sub_arith d N 0
  simpa [deltaT] using h

lemma cumsum_replicate (v : Vec3) :
    ∀ (N : ℕ) (acc : Vec3),
      cumsum acc (List.replicate N v) =
        (List.range N).map (fun i : ℕ => vadd acc (vsmul ((i : ℚ) + 1) v)) := by
  intro N
  induction N with
  | zero => intro acc; simp [cumsum]
  | succ n ih =>
      intro acc
      rw [List.replicate_succ, List.range_succ_eq_map]
      simp only [cumsum, List.map_cons, List.map_map, List.cons.injEq]
      constructor
      · simp only [vadd, vsmul, Vec3.mk.injEq]
        push_cast
        refine ⟨by ring, by ring, by ring⟩
      · rw [ih (vadd acc v)]
        apply List.map_congr_left
        intro i _
        simp only [Function.comp, vadd, vsmul, Vec3.mk.injEq]
        push_cast
        refine ⟨by ring, by ring, by ring⟩

/-- C6: for constant rate `r`, uniform step `d > 0`, times `t_i = (i+1)·d`
and `N ≥ 1`, the integral at index `i` is `r × (i+1) × d` per axis. -/
theorem integrate_constant_rate (r : Vec3) (d : ℚ) (N : ℕ)
    (hd : 0 < d) (hN : 1 ≤ N) :
    integrate ((List.range N).map (fun i : ℕ => ((i : ℚ) + 1) * d)) (List.replicate N r) =
      (List.range N).map (fun i : ℕ => vsmul (((i : ℚ) + 1) * d) r) := by
  unfold integrate
  rw [deltaT_uniform]
  have hz :
      List.zipWith (fun p q => vsmul q p) (List.replicate N r) (List.replicate N d) =
        List.replicate N (vsmul d r) := by
    simpa using (List.zipWith_replicate (f := fun p q => vsmul q p))
  rw [hz, cumsum_replicate]
  apply List.map_congr_left
  intro i _
  simp only [vadd, vsmul, vzero, Vec3.mk.injEq]
  refine ⟨by ring, by ring, by ring⟩

/-- C6 witness: `r = (1, 2, 3)`, `d = 2`, `N = 3`. -/
theorem integrate_constant_rate_witness :
    integrate ((List.range 3).map (fun i : ℕ => ((i : ℚ) + 1) * 2)) (List.replicate 3 ⟨1, 2, 3⟩) =
      (List.range 3).map (fun i : ℕ => vsmul (((i : ℚ) + 1) * 2) ⟨1, 2, 3⟩) :=
  integrate_constant_rate ⟨1, 2, 3⟩ 2 3 (by norm_num) (by norm_num)

lemma zipWith_smul_zero :
    ∀ (ds : List ℚ) (N : ℕ),
      List.zipWith (fun p q => vsmul q p) (List.replicate N vzero) ds =
        List.replicate (min N ds.length) vzero := by
  intro ds
  induction ds with
  | nil => intro N; simp
  | cons d ds ih =>
      intro N
      cases N with
      | zero => simp
      | succ n =>
          simp only [List.replicate_succ, List.zipWith_cons_cons, List.length_cons, ih n,
            Nat.succ_min_succ, List.cons.injEq]
          constructor
          · simp [vsmul, vzero]
          · trivial

lemma cumsum_zero : ∀ N : ℕ, cumsum vzero (List.replicate N vzero) = List.replicate N vzero := by
  intro N
  induction N with
  | zero => simp [cumsum]
  | succ n ih =>
      rw [List.replicate_succ]
      simp only [cumsum]
      have hv : vadd vzero vzero = vzero := by simp [vadd, vzero]
      rw [hv, ih]

lemma integrate_zero (times : List ℚ) (N : ℕ) (h : times.length = N) :
    integrate times (List.replicate N vzero) = List.replicate N vzero := by
  unfold integrate
  have hlen : (deltaT times).length = N := by
    simp [deltaT, h]
  rw [zipWith_smul_zero, hlen, min_self, cumsum_zero]

/-- C8: integrating an all-zero N×3 series twice yields an all-zero series,
for any time column of matching length. -/
theorem double_integrate_zero (times : List ℚ) (N : ℕ) (h : times.length = N) :
    integrate times (integrate times (List.replicate N vzero)) =
      List.replicate N vzero := by
  rw [integrate_zero times N h, integrate_zero times N h]

/-- C8 witness: times `[1, 5]`, `N = 2`. -/
theorem double_integrate_zero_witness :
    integrate [1, 5] (integrate [1, 5] (List.replicate 2 vzero)) =
      List.replicate 2 vzero :=
  double_integrate_zero [1, 5] 2 (by decide)

/-- Componentwise order on rate rows. -/
def le3 (a b : Vec3) : Prop := a.x ≤ b.x ∧ a.y ≤ b.y ∧ a.z ≤ b.z

/-- A rate row with all three components non-negative. -/
def nonneg3 (v : Vec3) : Prop := 0 ≤ v.x ∧ 0 ≤ v.y ∧ 0 ≤ v.z

lemma delta_nonneg :
    ∀ (ts : List ℚ) (p : ℚ), List.Chain (fun a b => a ≤ b) p ts →
      ∀ q ∈ List.zipWith (fun a b => a - b) ts (p :: ts), 0 ≤ q := by
  intro ts
  induction ts with
  | nil => intro p _ q hq; simp at hq
  | cons t ts ih =>
      intro p hchain q hq
      rw [List.chain_cons] at hchain
      simp only [List.zipWith_cons_cons, List.mem_cons] at hq
      rcases hq with hq | hq
      · rw [hq]
        exact sub_nonneg.mpr hchain.1
      · exact ih t hchain.2 q hq

lemma increments_nonneg :
    ∀ (ps : List Vec3) (ds : List ℚ),
      (∀ v ∈ ps, nonneg3 v) → (∀ q ∈ ds, 0 ≤ q) →
      ∀ w ∈ List.zipWith (fun p q => vsmul q p) ps ds, nonneg3 w := by
  intro ps
  induction ps with
  | nil => intro ds _ _ w hw; simp at hw
  | cons p ps ih =>
      intro ds hps hds w hw
      cases ds with
      | nil => simp at hw
      | cons d ds =>
          simp only [List.zipWith_cons_cons, List.mem_cons] at hw
          rcases hw with hw | hw
          · have hp := hps p (List.mem_cons_self p ps)
            have hd := hds d (List.mem_cons_self d ds)
            rw [hw]
            exact ⟨mul_nonneg hp.1 hd, mul_nonneg hp.2.1 hd, mul_nonneg hp.2.2 hd⟩
          · exact ih ds (fun v hv => hps v (List.mem_cons_of_mem p hv))
              (fun q hq => hds q (List.mem_cons_of_mem d hq)) w hw

lemma cumsum_chain :
    ∀ (l : List Vec3) (acc : Vec3), (∀ v ∈ l, nonneg3 v) →
      List.Chain le3 acc (cumsum acc l) := by
  intro l
  induction l with
  | nil => intro acc _; simp [cumsum]
  | cons h t ih =>
      intro acc hl
      simp only [cumsum]
      rw [List.chain_cons]
      constructor
      · have hh := hl h (List.mem_cons_self h t)
        exact ⟨le_add_of_nonneg_right hh.1, le_add_of_nonneg_right hh.2.1,
          le_add_of_nonneg_right hh.2.2⟩
      · exact ih (vadd acc h) (fun v hv => hl v (List.mem_cons_of_mem h hv))

/-- C10: if the time column is non-decreasing starting from a first stamp
`≥ 0` (expressed as a `≤`-chain from `0`) and every rate row is componentwise
non-negative, then each axis of the integral is non-decreasing. -/
theorem integrate_monotone (times : List ℚ) (points : List Vec3)
    (htimes : List.Chain (fun a b => a ≤ b) 0 times)
    (hpts : ∀ v ∈ points, nonneg3 v) :
    List.Chain' le3 (integrate times points) := by
  have hds : ∀ q ∈ deltaT times, 0 ≤ q := delta_nonneg times 0 htimes
  have hinc : ∀ w ∈ List.zipWith (fun p q => vsmul q p) points (deltaT times), nonneg3 w :=
    increments_nonneg points (deltaT times) hpts hds
  have hchain := cumsum_chain (List.zipWith (fun p q => vsmul q p) points (deltaT times))
    vzero hinc
  have hchain' : List.Chain' le3 (vzero :: integrate times points) := hchain
  exact hchain'.tail

/-- C10 witness: times `[1, 2]`, rates `[(1, 0, 2), (3, 1, 0)]`. -/
theorem integrate_monotone_witness :
    List.Chain' le3 (integrate [1, 2] [⟨1, 0, 2⟩, ⟨3, 1, 0⟩]) := by
  apply integrate_monotone [1, 2] [⟨1, 0, 2⟩, ⟨3, 1, 0⟩]
  · rw [List.chain_cons, List.chain_cons]
    refine ⟨by norm_num, by norm_num, List.Chain.nil⟩
  · intro v hv
    simp only [List.mem_cons, List.not_mem_nil, or_false] at hv
    rcases hv with hv | hv <;> rw [hv] <;>
      exact ⟨by norm_num, by norm_num, by norm_num⟩

/-! ## The Static-Interval Calibrator

Float entries that can be NaN are modelled as `Option ℚ` with `none` for NaN;
the elementwise operations propagate `none` exactly as IEEE NaN propagates. -/

def oadd : Option ℚ → Option ℚ → Option ℚ
  | some a, some b => some (a + b)
  | _, _ => none

def osub : Option ℚ → Option ℚ → Option ℚ
  | some a, some b => some (a - b)
  | _, _ => none

def osum (l : List (Option ℚ)) : Option ℚ := l.foldr oadd (some 0)

/-- `np.mean` of a column: NaN on the empty column, NaN-propagating otherwise. -/
def omean (l : List (Option ℚ)) : Option ℚ :=
  if l.length = 0 then none else (osum l).map (fun s => s / (l.length : ℚ))

/-- One row of the N×3 table fed to `calibrate`, entries possibly NaN. -/
structure CVec3 where
  x : Option ℚ
  y : Option ℚ
  z : Option ℚ
deriving DecidableEq, Repr

/-- `np.mean(…, axis=0)`: one scalar mean per column. -/
def cmean (rows : List CVec3) : CVec3 :=
  ⟨omean (rows.map CVec3.x), omean (rows.map CVec3.y), omean (rows.map CVec3.z)⟩

def csub (a b : CVec3) : CVec3 := ⟨osub a.x b.x, osub a.y b.y, osub a.z b.z⟩

/-- The per-sample mask entry: `(start < times) & (times < stop)` for one
interval, OR'd over the interval list (`np.any(np.stack(...), axis=1)`). -/
def isStatic (st : List (ℚ × ℚ)) (t : ℚ) : Bool :=
  st.any (fun p => decide (p.1 < t) && decide (t < p.2))

/-- `calibrate` (`src/main.py`, lines 74–100). `np.stack` of the per-interval
comparison arrays raises on an empty interval list, modelled by `none`;
otherwise the bias row (mean of the mask-selected rows) is subtracted from
every row. -/
def calibrate (times : List ℚ) (data : List CVec3) (st : List (ℚ × ℚ)) :
    Option (List CVec3) :=
  if st.isEmpty then none
  else
    let mask := times.map (isStatic st)
    let selected := (List.zip mask data).filterMap
      (fun md => if md.1 = true then some md.2 else none)
    let bias := cmean selected
    some (data.map (fun r => csub r bias))

/-- A row of finite (non-NaN) float values. -/
def finRow (v : Vec3) : CVec3 := ⟨some v.x, some v.y, some v.z⟩

/-- Modelled from the spec wording of the Calibrator mask: the data rows whose
time lies strictly inside at least one static interval. -/
def staticRows (times : List ℚ) (data : List Vec3) (st : List (ℚ × ℚ)) :
    List Vec3 :=
  ((List.zip times data).filter
    (fun td => decide (∃ p ∈ st, p.1 < td.1 ∧ td.1 < p.2))).map Prod.snd

/-- Arithmetic mean per axis of a list of rows. -/
def vmean (l : List Vec3) : Vec3 :=
  ⟨(l.map Vec3.x).sum / l.length, (l.map Vec3.y).sum / l.length,
    (l.map Vec3.z).sum / l.length⟩

/-- Modelled from the spec wording of the Calibrator: bias = per-axis mean
over the static-flagged samples, subtracted from every row. -/
def calibrateSpec (times : List ℚ) (data : List Vec3) (st : List (ℚ × ℚ)) :
    List Vec3 :=
  data.map (fun r => vsub r (vmean (staticRows times data st)))

/-! ## Claims about the Calibrator -/

/-- C2 counterexample: with an empty static-interval list the calibrator
fails (`np.stack` of an empty list raises `ValueError`), so it does not
return a NaN-filled table. -/
theorem calibrate_empty_interval_list_fails :
    calibrate [0] [⟨some 1, some 2, some 3⟩] [] = none := rfl

lemma osub_none (a : Option ℚ) : osub a none = none := by
  cases a <;> rfl

lemma selected_all_false (st : List (ℚ × ℚ)) :
    ∀ (times : List ℚ) (data : List CVec3),
      (∀ t ∈ times, isStatic st t = false) →
      (List.zip (times.map (isStatic st)) data).filterMap
          (fun md => if md.1 = true then some md.2 else none) = [] := by
  intro times
  induction times with
  | nil => intro data _; simp
  | cons t ts ih =>
      intro data hmask
      cases data with
      | nil => simp
      | cons r rs =>
          have ht : isStatic st t = false := hmask t (List.mem_cons_self t ts)
          simp only [List.map_cons, List.zip_cons_cons, List.filterMap_cons, ht]
          simp only [Bool.false_eq_true, if_false]
          exact ih rs (fun u hu => hmask u (List.mem_cons_of_mem t hu))

/-- C2 (amended): with a NON-empty interval list none of whose intervals
strictly contains any sample time, the calibrator does not fail: it returns
the table with NaN in every entry of every row. (With an EMPTY interval
list it fails instead; see the counterexample.) -/
theorem calibrate_no_static_sample (times : List ℚ) (data : List CVec3)
    (st : List (ℚ × ℚ)) (hst : st ≠ [])
    (hmask : ∀ t ∈ times, ∀ p ∈ st, ¬(p.1 < t ∧ t < p.2)) :
    calibrate times data st = some (data.map (fun _ => ⟨none, none, none⟩)) := by
  have hempty : st.isEmpty = false := by
    cases st with
    | nil => exact absurd rfl hst
    | cons p ps => simp
  have hmask' : ∀ t ∈ times, isStatic st t = false := by
    intro t ht
    rw [Bool.eq_false_iff]
    intro hc
    rw [isStatic, List.any_eq_true] at hc
    rcases hc with ⟨p, hp, hc⟩
    rw [Bool.and_eq_true, decide_eq_true_eq, decide_eq_true_eq] at hc
    exact hmask t ht p hp hc
  unfold calibrate
  rw [hempty]
  simp only [Bool.false_eq_true, if_false, selected_all_false st times data hmask']
  congr 1
  apply List.map_congr_left
  intro r _
  simp [csub, cmean, omean, osub_none]

/-- C2 witness: interval `(2, 3)` contains neither of the times `0, 5`. -/
theorem calibrate_no_static_sample_witness :
    calibrate [0, 5] [⟨some 1, some 1, some 1⟩, ⟨some 4, some 5, some 6⟩] [(2, 3)] =
      some (([⟨some 1, some 1, some 1⟩, ⟨some 4, some 5, some 6⟩] : List CVec3).map
        (fun _ => (⟨none, none, none⟩ : CVec3))) := by
  apply calibrate_no_static_sample
  · simp
  · intro t ht p hp
    simp only [List.mem_cons, List.not_mem_nil, or_false] at ht hp
    subst hp
    rcases ht with rfl | rfl <;> norm_num

lemma isStatic_eq_decide (st : List (ℚ × ℚ)) (t : ℚ) :
    isStatic st t = decide (∃ p ∈ st, p.1 < t ∧ t < p.2) := by
  rw [Bool.eq_iff_iff]
  simp [isStatic]

lemma selected_eq (st : List (ℚ × ℚ)) :
    ∀ (times : List ℚ) (data : List CVec3),
      (List.zip (times.map (isStatic st)) data).filterMap
          (fun md => if md.1 = true then some md.2 else none) =
        ((List.zip times data).filter (fun td => isStatic st td.1)).map Prod.snd := by
  intro times
  induction times with
  | nil => intro data; simp
  | cons t ts ih =>
      intro data
      cases data with
      | nil => simp
      | cons r rs =>
          simp only [List.map_cons, List.zip_cons_cons, List.filterMap_cons,
            List.filter_cons]
          cases h : isStatic st t with
          | false =>
              simp only [Bool.false_eq_true, if_false, ih rs]
          | true =>
              simp only [if_true, ih rs, List.map_cons]

lemma osum_map_some : ∀ l : List ℚ, osum (l.map some) = some l.sum := by
  intro l
  induction l with
  | nil => simp [osum]
  | cons a l ih =>
      simp only [List.map_cons, osum, List.foldr_cons] at *
      rw [ih, oadd, List.sum_cons]

lemma omean_map_some (l : List ℚ) (h : l ≠ []) :
    omean (l.map some) = some (l.sum / l.length) := by
  unfold omean
  rw [List.length_map, if_neg (by simpa using h), osum_map_some]
  rfl

lemma cmean_map_finRow (l : List Vec3) (h : l ≠ []) :
    cmean (l.map finRow) = finRow (vmean l) := by
  have hx : (l.map finRow).map CVec3.x = (l.map Vec3.x).map some := by
    simp [finRow, List.map_map, Function.comp]
  have hy : (l.map finRow).map CVec3.y = (l.map Vec3.y).map some := by
    simp [finRow, List.map_map, Function.comp]
  have hz : (l.map finRow).map CVec3.z = (l.map Vec3.z).map some := by
    simp [finRow, List.map_map, Function.comp]
  have hne : ∀ g : Vec3 → ℚ, l.map g ≠ [] := by
    intro g
    simpa using h
  unfold cmean
  rw [hx, hy, hz, omean_map_some _ (hne Vec3.x), omean_map_some _ (hne Vec3.y),
    omean_map_some _ (hne Vec3.z)]
  simp [finRow, vmean, List.length_map]

lemma csub_finRow (a b : Vec3) : csub (finRow a) (finRow b) = finRow (vsub a b) := rfl

lemma staticRows_eq_code_filter (st : List (ℚ × ℚ)) :
    ∀ (times : List ℚ) (data : List Vec3),
      ((List.zip times (data.map finRow)).filter
          (fun td => isStatic st td.1)).map Prod.snd =
        (staticRows times data st).map finRow := by
  intro times
  induction times with
  | nil => intro data; simp [staticRows]
  | cons t ts ih =>
      intro data
      cases data with
      | nil => simp [staticRows]
      | cons r rs =>
          simp only [staticRows, List.map_cons, List.zip_cons_cons, List.filter_cons]
          rw [isStatic_eq_decide]
          cases hd : decide (∃ p ∈ st, p.1 < t ∧ t < p.2) with
          | false =>
              simpa [staticRows] using ih rs
          | true =>
              simp only [if_true, List.map_cons]
              have := ih rs
              simp only [staticRows] at this
              rw [this]

lemma staticRows_ne_nil :
    ∀ (times : List ℚ) (data : List Vec3), times.length = data.length →
      ∀ st : List (ℚ × ℚ), (∃ t ∈ times, ∃ p ∈ st, p.1 < t ∧ t < p.2) →
        staticRows times data st ≠ [] := by
  intro times
  induction times with
  | nil => intro data _ st h; simp at h
  | cons t ts ih =>
      intro data hlen st h
      cases data with
      | nil => simp at hlen
      | cons r rs =>
          by_cases hc : ∃ p ∈ st, p.1 < t ∧ t < p.2
          · simp [staticRows, List.filter_cons, hc]
          · rcases h with ⟨u, hu, hp⟩
            rcases List.mem_cons.mp hu with rfl | hu'
            · exact absurd hp hc
            · have hrec := ih rs (by simpa using hlen) st ⟨u, hu', hp⟩
              unfold staticRows at hrec ⊢
              simp only [List.zip_cons_cons, List.filter_cons, hc]
              simpa [hc] using hrec

lemma calibrate_finite (times : List ℚ) (data : List Vec3) (st : List (ℚ × ℚ))
    (hne : staticRows times data st ≠ []) :
    calibrate times (data.map finRow) st =
      some ((calibrateSpec times data st).map finRow) := by
  have hst : st ≠ [] := by
    intro hnil
    apply hne
    subst hnil
    simp [staticRows]
  have hempty : st.isEmpty = false := by
    cases st with
    | nil => exact absurd rfl hst
    | cons p ps => simp
  unfold calibrate
  rw [hempty]
  simp only [Bool.false_eq_true, if_false, selected_eq st times (data.map finRow),
    staticRows_eq_code_filter st times data, cmean_map_finRow _ hne]
  unfold calibrateSpec
  rw [List.map_map, List.map_map]
  congr 1

/-- C5: over finite data of the same length as the time column, with at least
one sample strictly inside some interval, `calibrate` computes exactly the
spec's calibrator: flag sample `i` iff some interval `(s, e)` has
`s < t_i < e`, take the per-axis arithmetic mean over the flagged samples,
and subtract that bias row from every row of the table. -/
theorem calibrate_matches_spec (times : List ℚ) (data : List Vec3)
    (st : List (ℚ × ℚ)) (hlen : times.length = data.length)
    (hsample : ∃ t ∈ times, ∃ p ∈ st, p.1 < t ∧ t < p.2) :
    calibrate times (data.map finRow) st =
      some ((calibrateSpec times data st).map finRow) :=
  calibrate_finite times data st (staticRows_ne_nil times data hlen st hsample)

/-- C5 witness: times `[1]`, one data row, one interval `(0, 2)`. -/
theorem calibrate_matches_spec_witness :
    calibrate [1] ([⟨2, 3, 4⟩].map finRow) [(0, 2)] =
      some ((calibrateSpec [1] [⟨2, 3, 4⟩] [(0, 2)]).map finRow) :=
  calibrate_matches_spec [1] [⟨2, 3, 4⟩] [(0, 2)] rfl
    ⟨1, by simp, (0, 2), by simp, by norm_num, by norm_num⟩

lemma staticRows_map (st : List (ℚ × ℚ)) (f : Vec3 → Vec3) :
    ∀ (times : List ℚ) (data : List Vec3),
      staticRows times (data.map f) st = (staticRows times data st).map f := by
  intro times
  induction times with
  | nil => intro data; simp [staticRows]
  | cons t ts ih =>
      intro data
      cases data with
      | nil => simp [staticRows]
      | cons r rs =>
          simp only [staticRows, List.map_cons, List.zip_cons_cons, List.filter_cons]
          cases hd : decide (∃ p ∈ st, p.1 < t ∧ t < p.2) with
          | false =>
              simpa [staticRows] using ih rs
          | true =>
              simp only [if_true, List.map_cons]
              have := ih rs
              simp only [staticRows] at this
              rw [this]

lemma sum_map_sub_const : ∀ (l : List ℚ) (c : ℚ),
    (l.map (fun a => a - c)).sum = l.sum - l.length * c := by
  intro l
  induction l with
  | nil => intro c; simp
  | cons a l ih =>
      intro c
      simp only [List.map_cons, List.sum_cons, List.length_cons, ih c]
      push_cast
      ring

lemma vmean_map_sub (l : List Vec3) (b : Vec3) (h : l ≠ []) :
    vmean (l.map (fun v => vsub v b)) = vsub (vmean l) b := by
  have hn : ((l.length : ℚ)) ≠ 0 := by
    simpa using List.length_pos.mpr h |>.ne'
  unfold vmean vsub
  simp only [List.map_map, List.length_map, Function.comp_def]
  have hx : (l.map (fun v : Vec3 => v.x - b.x)).sum = (l.map Vec3.x).sum - l.length * b.x := by
    have := sum_map_sub_const (l.map Vec3.x) b.x
    simpa [List.map_map, Function.comp] using this
  have hy : (l.map (fun v : Vec3 => v.y - b.y)).sum = (l.map Vec3.y).sum - l.length * b.y := by
    have := sum_map_sub_const (l.map Vec3.y) b.y
    simpa [List.map_map, Function.comp] using this
  have hz : (l.map (fun v : Vec3 => v.z - b.z)).sum = (l.map Vec3.z).sum - l.length * b.z := by
    have := sum_map_sub_const (l.map Vec3.z) b.z
    simpa [List.map_map, Function.comp] using this
  rw [hx, hy, hz]
  simp only [Vec3.mk.injEq]
  refine ⟨?_, ?_, ?_⟩ <;> field_simp

/-- C9: the Calibrator is idempotent on finite data whose static mask is
non-empty: recalibrating its own output with the same time column and
interval list returns the output unchanged (the recomputed bias is zero). -/
theorem calibrate_idempotent (times : List ℚ) (data : List Vec3)
    (st : List (ℚ × ℚ)) (hlen : times.length = data.length)
    (hsample : ∃ t ∈ times, ∃ p ∈ st, p.1 < t ∧ t < p.2)
    (d1 : List CVec3)
    (h1 : calibrate times (data.map finRow) st = some d1) :
    calibrate times d1 st = some d1 := by
  have hne := staticRows_ne_nil times data hlen st hsample
  have hc1 := calibrate_finite times data st hne
  rw [h1] at hc1
  have hd1 : d1 = (calibrateSpec times data st).map finRow := Option.some.inj hc1
  subst hd1
  have hspec : calibrateSpec times data st =
      data.map (fun r => vsub r (vmean (staticRows times data st))) := rfl
  rw [hspec]
  have hne2 : staticRows times
      (data.map (fun r => vsub r (vmean (staticRows times data st)))) st ≠ [] := by
    rw [staticRows_map]
    simpa using hne
  have hc2 := calibrate_finite times
    (data.map (fun r => vsub r (vmean (staticRows times data st)))) st hne2
  have hfix : calibrateSpec times
      (data.map (fun r => vsub r (vmean (staticRows times data st)))) st =
        data.map (fun r => vsub r (vmean (staticRows times data st))) := by
    unfold calibrateSpec
    rw [staticRows_map, vmean_map_sub _ _ hne]
    have hbb : vsub (vmean (staticRows times data st)) (vmean (staticRows times data st)) =
        vzero := by
      simp [vsub, vzero]
    rw [hbb]
    have hid : ∀ r : Vec3, vsub r vzero = r := by
      intro r
      simp [vsub, vzero]
    simp only [hid]
    simp
  rw [hfix] at hc2
  exact hc2

/-- C9 witness: times `[1]`, one zero data row, one interval `(0, 2)`. -/
theorem calibrate_idempotent_witness :
    calibrate [1] ((calibrateSpec [1] [⟨0, 0, 0⟩] [(0, 2)]).map finRow) [(0, 2)] =
      some ((calibrateSpec [1] [⟨0, 0, 0⟩] [(0, 2)]).map finRow) :=
  calibrate_idempotent [1] [⟨0, 0, 0⟩] [(0, 2)] rfl
    ⟨1, by simp, (0, 2), by simp, by norm_num, by norm_num⟩
    ((calibrateSpec [1] [⟨0, 0, 0⟩] [(0, 2)]).map finRow)
    (calibrate_finite [1] [⟨0, 0, 0⟩] [(0, 2)]
      (staticRows_ne_nil [1] [⟨0, 0, 0⟩] rfl [(0, 2)]
        ⟨1, by simp, (0, 2), by simp, by norm_num, by norm_num⟩))

end TrainPlot
